import Mathlib

/-!
Verification of the civitai-archive directory-scan batch pipeline.

Shallow embedding, translated from the repository sources:
  * `src/civitai_manager/src/utils/string_utils.py` (sanitize_filename, calculate_sha256)
  * `src/civitai_manager/src/utils/file_tracker.py` (ProcessedFilesManager)
  * `src/civitai_manager/src/core/batch_processor.py` (BatchProcessor.process_files)
  * `src/civitai_manager/src/core/file_processor.py` (process_single_file and its steps)
  * `src/civitai_manager/src/core/metadata_manager.py` (process_directory ledger update)
-/

namespace Civitai

/-! ## FilenameSanitizer: `string_utils.sanitize_filename`

The Python function is
```
base_name, extension = os.path.splitext(filename)
base_name = re.sub(r'[^a-zA-Z0-9._-]', '_', base_name)
base_name = re.sub(r'_+', '_', base_name)
base_name = re.sub(r'\x7b2,\x7d'-style dot collapse, '.', base_name)  -- r'\.\x7b2,\x7d' -> '.'
base_name = base_name.strip('._')
if not base_name: base_name = '_'
return base_name + extension
```
We model strings as `List Char` internally.  `os.path.splitext` follows the
posixpath implementation: split at the last dot, provided the last dot comes
after the last `/` and at least one character strictly between the start of
the basename and that dot is not a dot. -/

/-- Character class of `[a-zA-Z0-9._-]` (the characters the stem keeps). -/
def isAllowed (c : Char) : Bool :=
  ('a' ≤ c && c ≤ 'z') || ('A' ≤ c && c ≤ 'Z') || ('0' ≤ c && c ≤ '9') ||
  c == '.' || c == '_' || c == '-'

/-- Step `re.sub(r'[^a-zA-Z0-9._-]', '_', s)`: every disallowed character becomes `_`. -/
def mapBad (l : List Char) : List Char :=
  l.map (fun c => if isAllowed c then c else '_')

def isUnd (c : Char) : Bool := c == '_'

def isDot (c : Char) : Bool := c == '.'

/-- A character stripped by `str.strip('._')`. -/
def isStripChar (c : Char) : Bool := c == '.' || c == '_'

/-- Tail worker for run collapsing: `prev` is the last kept character; a
character is dropped when both it and `prev` satisfy `p`.  This collapses each
maximal run of `p`-characters to its first character, which is exactly what
`re.sub(r'_+', '_', s)` and the dot-run collapse do for single-character
classes. -/
def squeezeAux (p : Char → Bool) (prev : Char) : List Char → List Char
  | [] => []
  | c :: cs => if p prev && p c then squeezeAux p prev cs else c :: squeezeAux p c cs

/-- Collapse maximal runs of `p`-characters to a single occurrence. -/
def squeeze (p : Char → Bool) : List Char → List Char
  | [] => []
  | c :: cs => c :: squeezeAux p c cs

/-- Remove trailing characters satisfying `m` (the right half of `str.strip`). -/
def dropEndWhile (m : Char → Bool) : List Char → List Char
  | [] => []
  | c :: cs =>
    let rest := dropEndWhile m cs
    if rest.isEmpty && m c then [] else c :: rest

/-- Step `str.strip('._')` over the stem: drop the strip characters from both ends. -/
def stripEnds (m : Char → Bool) (l : List Char) : List Char :=
  dropEndWhile m (l.dropWhile m)

/-- Last index of character `c` in the list (`str.rfind`), `none` when absent. -/
def lastIndexOf (c : Char) : List Char → Option Nat
  | [] => none
  | a :: as =>
    match lastIndexOf c as with
    | some i => some (i + 1)
    | none => if a == c then some 0 else none

/-- Model of `os.path.splitext` (posixpath): split at the last `.` when it lies after the
last `/` and some character between the basename start and that dot is not a
dot; otherwise the extension is empty. -/
def splitext (p : List Char) : List Char × List Char :=
  match lastIndexOf '.' p with
  | none => (p, [])
  | some d =>
    let s : Nat :=
      match lastIndexOf '/' p with
      | none => 0
      | some i => i + 1
    if s ≤ d && ((p.drop s).take (d - s)).any (fun c => !(c == '.')) then
      (p.take d, p.drop d)
    else
      (p, [])

/-- The first four sanitizing steps on the stem: character substitution,
underscore-run collapsing, dot-run collapsing, end stripping. -/
def sanitizedStem (l : List Char) : List Char :=
  stripEnds isStripChar (squeeze isDot (squeeze isUnd (mapBad l)))

/-- Sanitize the stem: the four rewriting steps, then the `'_'` fallback for an
empty result (`if not base_name: base_name = '_'`). -/
def sanitizeBase (l : List Char) : List Char :=
  if (sanitizedStem l).isEmpty then ['_'] else sanitizedStem l

/-- Model of `string_utils.sanitize_filename`: sanitize the stem, reattach the original
extension unchanged. -/
def sanitize_filename (s : String) : String :=
  String.mk (sanitizeBase (splitext s.data).1 ++ (splitext s.data).2)

/-! ## ContentHasher: `string_utils.calculate_sha256`

`calculate_sha256` streams the file and returns the hex digest; the
`except FileNotFoundError` arm returns `None`, and the catch-all
`except Exception` arm logs and returns `None`.  We model the filesystem
abstractly (contents by path, plus a set of paths whose reads raise a
non-`FileNotFoundError` error) and parametrize over the digest function;
the claim under test is only about the error behaviour. -/

/-- What `open`/`read` can raise inside `calculate_sha256`'s `try` block. -/
inductive ReadErr where
  | fileNotFound
  | ioError
deriving DecidableEq

/-- Abstract filesystem for the hasher: file contents by path, and paths
whose reads fail with a generic error. -/
structure HashFS where
  files : List (String × List Nat)
  broken : List String

/-- Outcome of opening and fully reading a file. -/
def readBytes (fs : HashFS) (path : String) : Except ReadErr (List Nat) :=
  if path ∈ fs.broken then .error .ioError
  else
    match fs.files.lookup path with
    | some bs => .ok bs
    | none => .error .fileNotFound

/-- Model of `string_utils.calculate_sha256`: digest on success, `None` on
`FileNotFoundError`, `None` on any other exception.  The Lean type is total:
no exception escapes to the caller. -/
def calculate_sha256 (digest : List Nat → String) (fs : HashFS)
    (path : String) : Option String :=
  match readBytes fs path with
  | .ok bs => some (digest bs)
  | .error .fileNotFound => none
  | .error .ioError => none

/-! ## ProcessedFilesLedger: `file_tracker.ProcessedFilesManager`

Entries are dicts `{path, last_seen, still_exists, first_processed}`.
Timestamps are abstract ticks (`Nat`); filesystem existence is an abstract
predicate `fs : String → Bool` standing for `os.path.exists`. -/

/-- One entry of `processed_files.json`.  `first_processed` is present on
entries created by `add_processed_file` and absent after a reload (the load
conversion rebuilds entries without it). -/
structure Entry where
  path : String
  last_seen : Nat
  still_exists : Bool
  first_processed : Option Nat
deriving DecidableEq, Repr

/-- The in-memory `self.processed_files` dict: `{'files': [...], 'last_update': ...}`. -/
structure Ledger where
  files : List Entry
  last_update : Option Nat
deriving DecidableEq, Repr

/-- Constant `self.cleanup_threshold = 1000`. -/
def cleanup_threshold : Nat := 1000

/-- The ledger a fresh manager starts from when no file exists. -/
def emptyLedger : Ledger :=
  { files := [], last_update := none }

/-- Model of `ProcessedFilesManager.cleanup_old_entries`: an entry whose path exists is
kept (re-touched); one already flagged non-existent is dropped; one found
missing for the first time is flagged `still_exists = False` but kept. -/
def cleanup_old_entries (fs : String → Bool) (now : Nat) (l : Ledger) : Ledger :=
  { l with
    files := l.files.filterMap (fun e =>
      if fs e.path then
        some { e with still_exists := true, last_seen := now }
      else if !e.still_exists then
        none
      else
        some { e with still_exists := false }) }

/-- Model of `ProcessedFilesManager.save_processed_files`: run the cleanup pass when the
entry count exceeds the threshold, then persist with a fresh `last_update`.
The returned ledger is both the new in-memory state and the JSON written to
disk (the same dict is dumped); the dated-backup rotation, which does not
affect the ledger contents, is not modelled. -/
def save_processed_files (fs : String → Bool) (now : Nat) (l : Ledger) : Ledger :=
  let l1 := if l.files.length > cleanup_threshold then cleanup_old_entries fs now l else l
  { l1 with last_update := some now }

/-- Model of `ProcessedFilesManager._load_processed_files` on the contents of
`processed_files.json` (`none` = file missing, giving the empty ledger).  The
saved dict always has a `'files'` key, so the conversion branch always runs:
each entry keeps only its path, gets a fresh `last_seen`, and has
`still_exists` recomputed via `os.path.exists(path)`. -/
def load_processed_files (fs : String → Bool) (now : Nat)
    (saved : Option Ledger) : Ledger :=
  match saved with
  | none => emptyLedger
  | some data =>
    { files := data.files.map (fun e =>
        { path := e.path, last_seen := now, still_exists := fs e.path,
          first_processed := none }),
      last_update := some (data.last_update.getD now) }

/-- Model of `ProcessedFilesManager.is_file_processed`: some entry matches the path and
is still marked existing. -/
def is_file_processed (l : Ledger) (path : String) : Bool :=
  l.files.any (fun e => e.path == path && e.still_exists)

/-- The entry-list update of `add_processed_file`: update the first entry with
a matching path in place (early `return`), else append a fresh entry. -/
def addEntry (now : Nat) (fp : String) : List Entry → List Entry
  | [] => [{ path := fp, last_seen := now, still_exists := true,
             first_processed := some now }]
  | e :: es =>
    if e.path == fp then
      { e with last_seen := now, still_exists := true } :: es
    else
      e :: addEntry now fp es

/-- Model of `ProcessedFilesManager.add_processed_file`. -/
def add_processed_file (now : Nat) (l : Ledger) (fp : String) : Ledger :=
  { l with files := addEntry now fp l.files }

/-- Adding a list of paths in order. -/
def addAllPaths (now : Nat) (l : Ledger) (paths : List String) : Ledger :=
  paths.foldl (add_processed_file now) l

/-! ## BatchProcessor: `batch_processor.BatchProcessor.process_files`

One task per file is submitted to the pool unless the cooperative cancel flag
is observed (`if self._cancel.is_set(): break`); then every submitted future
is waited on in order: a `True` result increments `processed_files`, a `False`
result or an escaping exception increments `failed_files`.  `skipped_files`
is declared on the metrics dataclass but never incremented.  `cancelAt i`
tells whether the flag is observed set when file `i` is considered;
`outcome f` is what `future.result()` yields for file `f`. -/

/-- What `future.result()` yields for one task: the task's boolean return
value, or an exception escaping the task. -/
inductive TaskOutcome where
  | ok (b : Bool)
  | exn
deriving DecidableEq, Repr

/-- Model of `ProcessingMetrics` (the timing fields, which are wall-clock derived and
not claimed, are not modelled). -/
structure ProcessingMetrics where
  total_files : Nat
  processed_files : Nat
  failed_files : Nat
  skipped_files : Nat
deriving DecidableEq, Repr

/-- The files actually submitted: the longest prefix of the list whose
submission loop iterations all observe the cancel flag unset. -/
def submittedFiles {α : Type} (cancelAt : Nat → Bool) (files : List α) : List α :=
  files.take (((List.range files.length).takeWhile (fun i => !(cancelAt i))).length)

/-- The result-collection loop over the submitted futures, in submission
order. -/
def collectResults {α : Type} (outcome : α → TaskOutcome) :
    List α → ProcessingMetrics → ProcessingMetrics
  | [], m => m
  | f :: rest, m =>
    collectResults outcome rest
      (match outcome f with
        | .ok true => { m with processed_files := m.processed_files + 1 }
        | .ok false => { m with failed_files := m.failed_files + 1 }
        | .exn => { m with failed_files := m.failed_files + 1 })

/-- Model of `BatchProcessor.process_files`: metrics are reset (`total = len(files)`),
tasks are submitted until the cancel flag is observed, and each submitted
future's outcome is tallied. -/
def process_files {α : Type} (outcome : α → TaskOutcome) (cancelAt : Nat → Bool)
    (files : List α) : ProcessingMetrics :=
  collectResults outcome (submittedFiles cancelAt files)
    { total_files := files.length, processed_files := 0, failed_files := 0,
      skipped_files := 0 }

/-! ## SingleFileProcessor: `file_processor.process_single_file`

The per-file pipeline is embedded as a pure function from an abstract
environment (what the filesystem and the registry would answer) and the call
arguments to the boolean result plus a trace of its externally visible
actions, in program order.  Network exceptions inside a step are observably
the step's failure path and are not modelled separately. -/

/-- Externally visible actions of one `process_single_file` call.  The
constructors `netUserImages` and `writeVersionTxt` exist so that their
absence from every trace can be stated: `fetch_user_images` has no call
site, and no code path writes `civitai_version.txt`, the file
`check_for_updates` reads its stored `updatedAt` from. -/
inductive Ev where
  | mkOutputDirs      -- setup_export_directories: previews/, user_posts/
  | writeHashJson     -- extract_hash writes <stem>_hash.json
  | writeMetadataJson -- extract_metadata writes <stem>_metadata.json
  | netCheckByHash    -- check_for_updates: GET /model-versions/by-hash/<hash>
  | netVersionByHash  -- fetch_version_data: GET /model-versions/by-hash/<hash>
  | writeVersionJson  -- fetch_version_data writes <stem>_civitai_model_version.json
  | writeVersionTxt   -- a write of civitai_version.txt (no source location emits it)
  | writeMissingList  -- update_missing_files_list appends to missing_from_civitai.txt
  | writePreviewAsset -- download_preview_image writes into previews/
  | netModelDetails   -- fetch_model_details: GET /models/<id>
  | writeModelJson    -- fetch_model_details writes <stem>_civitai_model.json
  | netUserImages     -- fetch_user_images (downloads into user_images/)
  | netUserPosts      -- fetch_user_posts (downloads into user_posts/)
  | writeHtml         -- generate_html_summary
deriving DecidableEq, Repr

/-- Environment of one `process_single_file` call: what each probed
filesystem state and registry response would be. -/
structure Env where
  fileExists : Bool              -- file_path.exists()
  suffixSupported : Bool         -- file_path.suffix in SUPPORTED_FILE_EXTENSIONS
  htmlArtifactsExist : Bool      -- the three required JSONs (html_only mode)
  hashFileExists : Bool          -- <stem>_hash.json exists (only_update mode)
  storedHash : Option String     -- its hash_value (none: unreadable / missing key)
  freshHash : Option String      -- extract_hash result (none: failure)
  metadataOk : Bool              -- extract_metadata result
  versionTxtExists : Bool        -- civitai_version.txt exists
  storedUpdatedAt : Option String -- its updatedAt (none: parse error / missing)
  checkStatusOk : Bool           -- staleness GET answered 200
  checkUpdatedAt : Option String -- updatedAt in the staleness response
  versionStatusOk : Bool         -- fetch_version_data GET answered 200
  versionModelId : Option Nat    -- payload modelId (none: absent or falsy)
  previewCount : Nat             -- number of preview images in the payload
  detailsOk : Bool               -- fetch_model_details GET answered 200
deriving DecidableEq, Repr

/-- Arguments of `process_single_file` after `base_output_path` and `session`
(which carry no branching information). -/
structure Args where
  download_all_images : Bool
  skip_images : Bool
  html_only : Bool
  only_update : Bool
  user_images_level : String
  user_posts_limit : Nat
  images_per_post_limit : Nat
deriving DecidableEq, Repr

/-- Model of `file_processor.check_for_updates`: `true` means an update is needed.
Returns `true` without a request when `civitai_version.txt` is absent or
unreadable; otherwise one GET against the by-hash endpoint, and `false`
exactly when the stored and current `updatedAt` agree. -/
def check_for_updates (e : Env) : Bool × List Ev :=
  if !e.versionTxtExists then (true, [])
  else
    match e.storedUpdatedAt with
    | none => (true, [])
    | some stored =>
      if !e.checkStatusOk then (true, [.netCheckByHash])
      else
        match e.checkUpdatedAt with
        | none => (true, [.netCheckByHash])
        | some current =>
          if current == stored then (false, [.netCheckByHash])
          else (true, [.netCheckByHash])

/-- Model of `file_processor.fetch_version_data`: one GET; on 200 the payload is
written and (unless `skip_images`) each listed preview is downloaded, and the
payload's `modelId` is returned; on non-200 an error payload is written, the
missing-from-registry list is updated, and `None` is returned. -/
def fetch_version_data (e : Env) (skip_images : Bool) : Option Nat × List Ev :=
  if e.versionStatusOk then
    (e.versionModelId,
      [.netVersionByHash, .writeVersionJson] ++
        (if !skip_images then List.replicate e.previewCount .writePreviewAsset
         else []))
  else
    (none, [.netVersionByHash, .writeVersionJson, .writeMissingList])

/-- Model of `file_processor.fetch_model_details`: one GET; the target JSON file is
written in both the 200 and the error case (payload or error object);
returns whether the fetch succeeded. -/
def fetch_model_details (e : Env) : Bool × List Ev :=
  (e.detailsOk, [.netModelDetails, .writeModelJson])

/-- The hash step of `process_single_file`: in `only_update` mode the stored
`hash.json` is read and its value trusted (a falsy value raises, caught as
failure); otherwise `extract_hash` recomputes and writes `hash.json`. -/
def hashStep (e : Env) (only_update : Bool) : Option String × List Ev :=
  if only_update then
    if !e.hashFileExists then (none, [])
    else
      match e.storedHash with
      | none => (none, [])
      | some h => if h.isEmpty then (none, []) else (some h, [])
  else
    match e.freshHash with
    | none => (none, [])
    | some h => if h.isEmpty then (none, [.writeHashJson]) else (some h, [.writeHashJson])

/-- Model of `file_processor.process_single_file`: result and action trace, transcribed
branch by branch from the source.  Note that the boolean result of
`fetch_model_details` is discarded by the caller. -/
def process_single_file (e : Env) (a : Args) : Bool × List Ev :=
  if !e.fileExists then (false, [])
  else if !e.suffixSupported then (false, [])
  else
    if a.html_only then
      if !e.htmlArtifactsExist then (false, [.mkOutputDirs])
      else (true, [.mkOutputDirs, .writeHtml])
    else
      match hashStep e a.only_update with
      | (none, tr1) => (false, Ev.mkOutputDirs :: tr1)
      | (some _, tr1) =>
        let chk := check_for_updates e
        if !chk.1 then (true, Ev.mkOutputDirs :: (tr1 ++ chk.2))
        else
          let metaStep : Bool × List Ev :=
            if a.only_update then (true, [])
            else if e.metadataOk then (true, [.writeMetadataJson])
            else (false, [])
          if !metaStep.1 then
            (false, Ev.mkOutputDirs :: (tr1 ++ chk.2 ++ metaStep.2))
          else
            let ver := fetch_version_data e a.skip_images
            match ver.1 with
            | none =>
              (false, Ev.mkOutputDirs :: (tr1 ++ chk.2 ++ metaStep.2 ++ ver.2))
            | some _ =>
              let det := fetch_model_details e
              let posts : List Ev :=
                if !a.skip_images && a.user_posts_limit != 0 then [.netUserPosts]
                else []
              (true, Ev.mkOutputDirs ::
                (tr1 ++ chk.2 ++ metaStep.2 ++ ver.2 ++ det.2 ++ posts ++ [.writeHtml]))

/-! ## C10 call-site data: positional argument shift

`BatchProcessor.process_files` submits positional arguments to
`process_single_file`; the names below transcribe the two source locations. -/

/-- Positional parameter names of `process_single_file`
(file_processor.py, in declaration order). -/
def processSingleFileParams : List String :=
  ["file_path", "base_output_path", "download_all_images", "skip_images",
   "html_only", "only_update", "session", "user_images_level",
   "user_posts_limit", "images_per_post_limit"]

/-- The positional argument expressions `BatchProcessor.process_files` passes
to `executor.submit(process_single_file, ...)` (batch_processor.py, in call
order). -/
def batchSubmitArgs : List String :=
  ["file", "output_dir", "self.download_all_images", "self.skip_images",
   "self.html_only", "self.only_update", "self.session",
   "self.user_images_limit", "self.user_images_level"]

/-! ## DirectoryOrchestrator: the ledger-update step of
`metadata_manager.process_directory`

After `processor.process_files(...)` returns, unless in `html_only` or
`only_update` mode the orchestrator runs
`for file_path in safetensors_files[:metrics.processed_files]:
    files_manager.add_processed_file(file_path)`
followed by `files_manager.save_processed_files()`. -/

/-- Result of the post-batch step: the metrics, the ledger after the update,
and whether the ledger was saved. -/
def process_directory_ledger_step {α : Type} (html_only only_update : Bool)
    (now : Nat) (outcome : α → TaskOutcome) (cancelAt : Nat → Bool)
    (files : List α) (pathOf : α → String) (ledger : Ledger) :
    ProcessingMetrics × Ledger × Bool :=
  let m := process_files outcome cancelAt files
  if html_only || only_update then (m, ledger, false)
  else
    (m, addAllPaths now ledger ((files.take m.processed_files).map pathOf), true)

/-! ## Concrete sample inputs used by witnesses and counterexamples -/

/-- Arguments of a plain batch run: no `html_only`/`only_update`, images
skipped, no user-post limits. -/
def sampleArgs : Args :=
  { download_all_images := false, skip_images := true, html_only := false,
    only_update := false, user_images_level := "ALL", user_posts_limit := 0,
    images_per_post_limit := 0 }

/-- Environment of a second run over a file the first run fully processed
against an unchanged registry: every artifact of the first run is present,
but `civitai_version.txt` is absent — `versionTxtExists = false` — because no
code path writes it (`fetch_version_data` saves the `updatedAt` payload to
`<stem>_civitai_model_version.json` instead). -/
def sampleEnvSecondRun : Env :=
  { fileExists := true, suffixSupported := true, htmlArtifactsExist := true,
    hashFileExists := true, storedHash := some "abc123",
    freshHash := some "abc123", metadataOk := true, versionTxtExists := false,
    storedUpdatedAt := none, checkStatusOk := true,
    checkUpdatedAt := some "2024-01-01T00:00:00Z", versionStatusOk := true,
    versionModelId := some 7, previewCount := 2, detailsOk := true }

/-- Environment where the version fetch yields a model id but the model-detail
fetch fails. -/
def sampleEnvDetailFail : Env :=
  { fileExists := true, suffixSupported := true, htmlArtifactsExist := false,
    hashFileExists := false, storedHash := none, freshHash := some "abc123",
    metadataOk := true, versionTxtExists := false, storedUpdatedAt := none,
    checkStatusOk := true, checkUpdatedAt := none, versionStatusOk := true,
    versionModelId := some 42, previewCount := 0, detailsOk := false }

/-- A one-entry ledger whose entry is marked existing. -/
def sampleLedgerOne : Ledger :=
  { files := [{ path := "a", last_seen := 0, still_exists := true,
                first_processed := some 0 }],
    last_update := none }

/-! ### Invariants of the stem-sanitizing pipeline -/

/-- No two adjacent characters of the list both satisfy `p`. -/
def noTwo (p : Char → Bool) : List Char → Bool
  | [] => true
  | [_] => true
  | a :: b :: rest => (!(p a && p b)) && noTwo p (b :: rest)

theorem noTwo_cons_cons {p : Char → Bool} {a b : Char} {rest : List Char} :
    noTwo p (a :: b :: rest) = true ↔
      ((p a = false ∨ p b = false) ∧ noTwo p (b :: rest) = true) := by
  simp [noTwo, Bool.and_eq_true, Bool.not_eq_true', Bool.and_eq_false_iff]

theorem noTwo_tail {p : Char → Bool} {a : Char} {l : List Char}
    (h : noTwo p (a :: l) = true) : noTwo p l = true := by
  cases l with
  | nil => rfl
  | cons b rest => exact (noTwo_cons_cons.mp h).2

theorem squeezeAux_all {p q : Char → Bool} {l : List Char} (prev : Char)
    (h : l.all q = true) : (squeezeAux p prev l).all q = true := by
  induction l generalizing prev with
  | nil => rfl
  | cons c cs ih =>
    rw [List.all_cons, Bool.and_eq_true] at h
    simp only [squeezeAux]
    by_cases hc : (p prev && p c) = true
    · rw [if_pos hc]
      exact ih prev h.2
    · rw [if_neg hc, List.all_cons, Bool.and_eq_true]
      exact ⟨h.1, ih c h.2⟩

theorem squeeze_all {p q : Char → Bool} {l : List Char}
    (h : l.all q = true) : (squeeze p l).all q = true := by
  cases l with
  | nil => rfl
  | cons c cs =>
    rw [List.all_cons, Bool.and_eq_true] at h
    rw [squeeze, List.all_cons, Bool.and_eq_true]
    exact ⟨h.1, squeezeAux_all c h.2⟩

theorem squeezeAux_noTwo (p : Char → Bool) (prev : Char) (l : List Char) :
    noTwo p (prev :: squeezeAux p prev l) = true := by
  induction l generalizing prev with
  | nil => rfl
  | cons c cs ih =>
    simp only [squeezeAux]
    by_cases hc : (p prev && p c) = true
    · rw [if_pos hc]
      exact ih prev
    · rw [if_neg hc, noTwo_cons_cons]
      refine ⟨?_, ih c⟩
      rw [Bool.and_eq_true] at hc
      cases h1 : p prev
      · exact Or.inl rfl
      · cases h2 : p c
        · exact Or.inr rfl
        · exact absurd ⟨h1, h2⟩ hc

theorem squeeze_noTwo (p : Char → Bool) (l : List Char) :
    noTwo p (squeeze p l) = true := by
  cases l with
  | nil => rfl
  | cons c cs => exact squeezeAux_noTwo p c cs

theorem squeezeAux_id_of_noTwo {p : Char → Bool} {prev : Char} {l : List Char}
    (h : noTwo p (prev :: l) = true) : squeezeAux p prev l = l := by
  induction l generalizing prev with
  | nil => rfl
  | cons c cs ih =>
    rw [noTwo_cons_cons] at h
    simp only [squeezeAux]
    have hpc : ¬((p prev && p c) = true) := by
      intro hcontra
      rw [Bool.and_eq_true] at hcontra
      rcases h.1 with h' | h' <;> simp [hcontra.1, hcontra.2] at h'
    rw [if_neg hpc, ih h.2]

theorem squeeze_id_of_noTwo {p : Char → Bool} {l : List Char}
    (h : noTwo p l = true) : squeeze p l = l := by
  cases l with
  | nil => rfl
  | cons c cs =>
    rw [squeeze, squeezeAux_id_of_noTwo h]

theorem squeezeAux_id_of_allNot {p : Char → Bool} {l : List Char} (prev : Char)
    (h : l.all (fun c => !(p c)) = true) : squeezeAux p prev l = l := by
  induction l generalizing prev with
  | nil => rfl
  | cons c cs ih =>
    rw [List.all_cons, Bool.and_eq_true] at h
    have hc : p c = false := by
      have h1 := h.1; rwa [Bool.not_eq_true'] at h1
    have hpc : ¬((p prev && p c) = true) := by
      rw [Bool.and_eq_true]; intro hcontra
      rw [hc] at hcontra; exact Bool.false_ne_true hcontra.2
    simp only [squeezeAux]
    rw [if_neg hpc, ih c h.2]

theorem squeeze_id_of_allNot {p : Char → Bool} {l : List Char}
    (h : l.all (fun c => !(p c)) = true) : squeeze p l = l := by
  cases l with
  | nil => rfl
  | cons c cs =>
    rw [List.all_cons, Bool.and_eq_true] at h
    rw [squeeze, squeezeAux_id_of_allNot c h.2]

theorem squeezeAux_noTwo_other {p q : Char → Bool}
    (hdisj : ∀ c, q c = true → p c = false) :
    ∀ (l : List Char) (prev : Char), noTwo p (prev :: l) = true →
      noTwo p (prev :: squeezeAux q prev l) = true := by
  intro l
  induction l with
  | nil => intro prev _; rfl
  | cons c cs ih =>
    intro prev h
    rw [noTwo_cons_cons] at h
    simp only [squeezeAux]
    by_cases hc : (q prev && q c) = true
    · rw [if_pos hc]
      rw [Bool.and_eq_true] at hc
      have hp : p prev = false := hdisj prev hc.1
      apply ih prev
      cases cs with
      | nil => rfl
      | cons e es =>
        rw [noTwo_cons_cons]
        exact ⟨Or.inl hp, (noTwo_cons_cons.mp h.2).2⟩
    · rw [if_neg hc, noTwo_cons_cons]
      exact ⟨h.1, ih c h.2⟩

theorem squeeze_noTwo_other {p q : Char → Bool}
    (hdisj : ∀ c, q c = true → p c = false) {l : List Char}
    (h : noTwo p l = true) : noTwo p (squeeze q l) = true := by
  cases l with
  | nil => rfl
  | cons c cs => exact squeezeAux_noTwo_other hdisj cs c h

theorem all_dropWhile {q m : Char → Bool} {l : List Char}
    (h : l.all q = true) : (l.dropWhile m).all q = true := by
  induction l with
  | nil => rfl
  | cons c cs ih =>
    rw [List.all_cons, Bool.and_eq_true] at h
    rw [List.dropWhile_cons]
    by_cases hm : m c = true
    · rw [if_pos hm]; exact ih h.2
    · rw [if_neg hm, List.all_cons, Bool.and_eq_true]; exact ⟨h.1, h.2⟩

theorem noTwo_dropWhile {p m : Char → Bool} {l : List Char}
    (h : noTwo p l = true) : noTwo p (l.dropWhile m) = true := by
  induction l with
  | nil => rfl
  | cons c cs ih =>
    rw [List.dropWhile_cons]
    by_cases hm : m c = true
    · rw [if_pos hm]; exact ih (noTwo_tail h)
    · rw [if_neg hm]; exact h

theorem head_dropWhile_not {m : Char → Bool} {l : List Char} {c : Char}
    {cs : List Char} (h : l.dropWhile m = c :: cs) : m c = false := by
  induction l with
  | nil => exact absurd h (by simp)
  | cons a as ih =>
    rw [List.dropWhile_cons] at h
    by_cases hm : m a = true
    · rw [if_pos hm] at h; exact ih h
    · rw [if_neg hm] at h
      cases h
      exact Bool.not_eq_true _ ▸ (Bool.eq_false_iff.mpr hm)

theorem dropWhile_idem (m : Char → Bool) (l : List Char) :
    (l.dropWhile m).dropWhile m = l.dropWhile m := by
  cases hres : l.dropWhile m with
  | nil => rfl
  | cons c cs =>
    rw [List.dropWhile_cons, if_neg]
    rw [head_dropWhile_not hres]
    exact Bool.false_ne_true

theorem all_dropEndWhile {q m : Char → Bool} {l : List Char}
    (h : l.all q = true) : (dropEndWhile m l).all q = true := by
  induction l with
  | nil => rfl
  | cons c cs ih =>
    rw [List.all_cons, Bool.and_eq_true] at h
    simp only [dropEndWhile]
    by_cases hc : ((dropEndWhile m cs).isEmpty && m c) = true
    · rw [if_pos hc]; rfl
    · rw [if_neg hc, List.all_cons, Bool.and_eq_true]; exact ⟨h.1, ih h.2⟩

theorem head_dropEndWhile {m : Char → Bool} {l : List Char} {c : Char}
    {cs : List Char} (h : dropEndWhile m l = c :: cs) :
    ∃ ds, l = c :: ds := by
  cases l with
  | nil => exact absurd h (by simp [dropEndWhile])
  | cons a as =>
    simp only [dropEndWhile] at h
    by_cases hc : ((dropEndWhile m as).isEmpty && m a) = true
    · rw [if_pos hc] at h; cases h
    · rw [if_neg hc] at h
      cases h
      exact ⟨as, rfl⟩

theorem noTwo_dropEndWhile {p m : Char → Bool} {l : List Char}
    (h : noTwo p l = true) : noTwo p (dropEndWhile m l) = true := by
  induction l with
  | nil => rfl
  | cons c cs ih =>
    simp only [dropEndWhile]
    by_cases hc : ((dropEndWhile m cs).isEmpty && m c) = true
    · rw [if_pos hc]; rfl
    · rw [if_neg hc]
      have htail := ih (noTwo_tail h)
      cases hres : dropEndWhile m cs with
      | nil => rfl
      | cons e es =>
        obtain ⟨ds, hds⟩ := head_dropEndWhile hres
        rw [hres] at htail
        rw [noTwo_cons_cons]
        refine ⟨?_, htail⟩
        subst hds
        exact (noTwo_cons_cons.mp h).1

theorem dropEndWhile_idem (m : Char → Bool) (l : List Char) :
    dropEndWhile m (dropEndWhile m l) = dropEndWhile m l := by
  induction l with
  | nil => rfl
  | cons c cs ih =>
    simp only [dropEndWhile]
    by_cases hc : ((dropEndWhile m cs).isEmpty && m c) = true
    · rw [if_pos hc]; rfl
    · rw [if_neg hc]
      simp only [dropEndWhile, ih]
      rw [if_neg hc]

theorem stripEnds_all {q m : Char → Bool} {l : List Char}
    (h : l.all q = true) : (stripEnds m l).all q = true :=
  all_dropEndWhile (all_dropWhile h)

theorem stripEnds_noTwo {p m : Char → Bool} {l : List Char}
    (h : noTwo p l = true) : noTwo p (stripEnds m l) = true :=
  noTwo_dropEndWhile (noTwo_dropWhile h)

theorem stripEnds_head_not {m : Char → Bool} {l : List Char} {c : Char}
    {cs : List Char} (h : stripEnds m l = c :: cs) : m c = false := by
  obtain ⟨ds, hds⟩ := head_dropEndWhile h
  exact head_dropWhile_not hds

theorem stripEnds_idem (m : Char → Bool) (l : List Char) :
    stripEnds m (stripEnds m l) = stripEnds m l := by
  unfold stripEnds
  have hfix : (dropEndWhile m (l.dropWhile m)).dropWhile m
      = dropEndWhile m (l.dropWhile m) := by
    cases hres : dropEndWhile m (l.dropWhile m) with
    | nil => rfl
    | cons c cs =>
      rw [List.dropWhile_cons, if_neg]
      obtain ⟨ds, hds⟩ := head_dropEndWhile hres
      rw [head_dropWhile_not hds]
      exact Bool.false_ne_true
  rw [hfix, dropEndWhile_idem]

theorem mapBad_all (l : List Char) : (mapBad l).all isAllowed = true := by
  rw [List.all_eq_true]
  intro x hx
  rw [mapBad, List.mem_map] at hx
  obtain ⟨c, _, rfl⟩ := hx
  by_cases h : isAllowed c = true
  · rw [if_pos h]; exact h
  · rw [if_neg h]; decide

theorem mapBad_id_of_all {l : List Char} (h : l.all isAllowed = true) :
    mapBad l = l := by
  induction l with
  | nil => rfl
  | cons c cs ih =>
    rw [List.all_cons, Bool.and_eq_true] at h
    simp only [mapBad, List.map_cons]
    rw [if_pos h.1]
    have := ih h.2
    rw [mapBad] at this
    rw [this]

theorem isDot_not_isUnd : ∀ c, isDot c = true → isUnd c = false := by
  intro c h
  rw [isDot, beq_iff_eq] at h
  subst h
  decide

theorem sanitizedStem_all (l : List Char) :
    (sanitizedStem l).all isAllowed = true :=
  stripEnds_all (squeeze_all (squeeze_all (mapBad_all l)))

theorem sanitizedStem_noTwoUnd (l : List Char) :
    noTwo isUnd (sanitizedStem l) = true :=
  stripEnds_noTwo (squeeze_noTwo_other isDot_not_isUnd
    (squeeze_noTwo isUnd (mapBad l)))

theorem sanitizedStem_noTwoDot (l : List Char) :
    noTwo isDot (sanitizedStem l) = true :=
  stripEnds_noTwo (squeeze_noTwo isDot (squeeze isUnd (mapBad l)))

theorem sanitizedStem_strip (l : List Char) :
    stripEnds isStripChar (sanitizedStem l) = sanitizedStem l :=
  stripEnds_idem isStripChar (squeeze isDot (squeeze isUnd (mapBad l)))

/-- A list satisfying all pipeline invariants is a fixed point of the
four-step stem rewrite. -/
theorem sanitizedStem_fixed {y : List Char}
    (hall : y.all isAllowed = true)
    (hund : noTwo isUnd y = true)
    (hdot : noTwo isDot y = true)
    (hstrip : stripEnds isStripChar y = y) :
    sanitizedStem y = y := by
  rw [sanitizedStem, mapBad_id_of_all hall, squeeze_id_of_noTwo hund,
    squeeze_id_of_noTwo hdot, hstrip]

theorem sanitizeBase_idem (l : List Char) :
    sanitizeBase (sanitizeBase l) = sanitizeBase l := by
  by_cases hemp : (sanitizedStem l).isEmpty = true
  · have h1 : sanitizeBase l = ['_'] := by rw [sanitizeBase, if_pos hemp]
    rw [h1]
    decide
  · have h1 : sanitizeBase l = sanitizedStem l := by rw [sanitizeBase, if_neg hemp]
    have hfix : sanitizedStem (sanitizedStem l) = sanitizedStem l :=
      sanitizedStem_fixed (sanitizedStem_all l) (sanitizedStem_noTwoUnd l)
        (sanitizedStem_noTwoDot l) (sanitizedStem_strip l)
    rw [h1, sanitizeBase, hfix, if_neg hemp]

theorem sanitizeBase_all (l : List Char) :
    (sanitizeBase l).all isAllowed = true := by
  rw [sanitizeBase]
  by_cases hemp : (sanitizedStem l).isEmpty = true
  · rw [if_pos hemp]; decide
  · rw [if_neg hemp]; exact sanitizedStem_all l

/-- The sanitized stem never starts with a dot: it is either the `'_'`
fallback or starts with a character the strip step keeps. -/
theorem sanitizeBase_any_notDot (x : List Char) :
    (sanitizeBase x).any (fun c => !(c == '.')) = true := by
  rw [sanitizeBase]
  by_cases hemp : (sanitizedStem x).isEmpty = true
  · rw [if_pos hemp]; decide
  · rw [if_neg hemp]
    cases hres : sanitizedStem x with
    | nil => rw [hres] at hemp; exact absurd rfl hemp
    | cons c cs =>
      rw [sanitizedStem] at hres
      have hc : isStripChar c = false := stripEnds_head_not hres
      have hcd : (c == '.') = false := by
        rw [isStripChar] at hc
        cases h1 : (c == '.')
        · rfl
        · rw [h1] at hc; simp at hc
      rw [List.any_cons, hcd]
      rfl

/-! ### `os.path.splitext` support lemmas -/

theorem lastIndexOf_eq_none {c : Char} {l : List Char} :
    lastIndexOf c l = none ↔ c ∉ l := by
  induction l with
  | nil => simp [lastIndexOf]
  | cons a as ih =>
    simp only [lastIndexOf]
    cases h : lastIndexOf c as with
    | some i =>
      have hmem : c ∈ as := by
        by_contra hn
        rw [← ih] at hn
        rw [h] at hn
        cases hn
      simp [hmem]
    | none =>
      have hnot : c ∉ as := ih.mp h
      by_cases hac : (a == c) = true
      · rw [beq_iff_eq] at hac
        subst hac
        simp
      · rw [if_neg hac]
        have hne : ¬(a = c) := by
          intro hcontra; rw [hcontra] at hac; exact hac (beq_self_eq_true c)
        simp only [List.mem_cons, true_iff]
        intro hcontra
        rcases hcontra with h1 | h1
        · exact hne h1.symm
        · exact hnot h1

theorem lastIndexOf_spec {c : Char} {l : List Char} {d : Nat}
    (h : lastIndexOf c l = some d) :
    l.drop d = c :: l.drop (d + 1) ∧ c ∉ l.drop (d + 1) := by
  induction l generalizing d with
  | nil => cases h
  | cons a as ih =>
    simp only [lastIndexOf] at h
    cases hrec : lastIndexOf c as with
    | some i =>
      rw [hrec] at h
      cases h
      have := ih hrec
      constructor
      · show as.drop i = c :: as.drop (i + 1)
        exact this.1
      · exact this.2
    | none =>
      rw [hrec] at h
      by_cases hac : (a == c) = true
      · rw [if_pos hac] at h
        cases h
        rw [beq_iff_eq] at hac
        subst hac
        exact ⟨rfl, lastIndexOf_eq_none.mp hrec⟩
      · rw [if_neg hac] at h
        cases h

theorem lastIndexOf_append {c : Char} {B t : List Char} (h : c ∉ t) :
    lastIndexOf c (B ++ c :: t) = some B.length := by
  induction B with
  | nil =>
    simp [List.nil_append, lastIndexOf, lastIndexOf_eq_none.mpr h]
  | cons b B' ih =>
    simp only [List.cons_append, lastIndexOf]
    rw [show B' ++ c :: t = B'.append (c :: t) from rfl] at ih
    rw [ih, List.length_cons]

theorem splitext_of_none {l : List Char}
    (hd : lastIndexOf '.' l = none) : splitext l = (l, []) := by
  rw [splitext, hd]

theorem splitext_of_split {l : List Char} {d : Nat}
    (hd : lastIndexOf '.' l = some d) (hsl : lastIndexOf '/' l = none)
    (hany : (l.take d).any (fun c => !(c == '.')) = true) :
    splitext l = (l.take d, l.drop d) := by
  rw [splitext, hd, hsl]
  simp only [List.drop_zero, Nat.sub_zero]
  rw [if_pos]
  rw [Bool.and_eq_true]
  exact ⟨by simp, hany⟩

theorem splitext_of_allDots {l : List Char} {d : Nat}
    (hd : lastIndexOf '.' l = some d) (hsl : lastIndexOf '/' l = none)
    (hall : (l.take d).any (fun c => !(c == '.')) = false) :
    splitext l = (l, []) := by
  rw [splitext, hd, hsl]
  simp only [List.drop_zero, Nat.sub_zero]
  rw [if_neg]
  rw [Bool.and_eq_true]
  intro hcontra
  rw [hall] at hcontra
  exact Bool.false_ne_true hcontra.2

/-! ### A stem whose dots form a leading run sanitizes to a dot-free stem -/

theorem squeezeAux_eq_squeeze_of_not {p : Char → Bool} {prev : Char}
    (h : p prev = false) (l : List Char) :
    squeezeAux p prev l = squeeze p l := by
  cases l with
  | nil => rfl
  | cons c cs =>
    rw [squeeze]
    simp only [squeezeAux]
    rw [if_neg]
    rw [Bool.and_eq_true]
    intro hcontra
    rw [h] at hcontra
    exact Bool.false_ne_true hcontra.1

theorem squeeze_append_of_allNot {p : Char → Bool} {l1 : List Char}
    (h : l1.all (fun c => !(p c)) = true) (l2 : List Char) :
    squeeze p (l1 ++ l2) = l1 ++ squeeze p l2 := by
  induction l1 with
  | nil => rfl
  | cons a l1' ih =>
    rw [List.all_cons, Bool.and_eq_true] at h
    have ha : p a = false := by
      have h1 := h.1; rwa [Bool.not_eq_true'] at h1
    rw [List.cons_append, squeeze, squeezeAux_eq_squeeze_of_not ha, ih h.2,
      List.cons_append]

theorem replicate_all_not_isUnd (k : Nat) :
    (List.replicate k '.').all (fun c => !(isUnd c)) = true := by
  rw [List.all_eq_true]
  intro x hx
  rw [List.mem_replicate] at hx
  rw [hx.2]
  decide

theorem mapBad_dotFree {m : List Char}
    (hm : m.all (fun c => !(isDot c)) = true) :
    (mapBad m).all (fun c => !(isDot c)) = true := by
  rw [List.all_eq_true]
  intro x hx
  rw [mapBad, List.mem_map] at hx
  obtain ⟨c, hc, rfl⟩ := hx
  have hcd := List.all_eq_true.mp hm c hc
  by_cases h : isAllowed c = true
  · rw [if_pos h]; exact hcd
  · rw [if_neg h]; decide

theorem mapBad_replicate_dot (k : Nat) (m : List Char) :
    mapBad (List.replicate k '.' ++ m) = List.replicate k '.' ++ mapBad m := by
  rw [mapBad, List.map_append, List.map_replicate]
  rfl

theorem squeezeAux_dot_over_replicate {m : List Char}
    (hm : m.all (fun c => !(isDot c)) = true) (j : Nat) :
    squeezeAux isDot '.' (List.replicate j '.' ++ m) = m := by
  induction j with
  | zero =>
    rw [List.replicate, List.nil_append]
    exact squeezeAux_id_of_allNot '.' hm
  | succ i ih =>
    rw [List.replicate_succ, List.cons_append]
    simp only [squeezeAux]
    rw [if_pos (by decide), ih]

theorem squeeze_dot_replicate_succ {m : List Char}
    (hm : m.all (fun c => !(isDot c)) = true) (j : Nat) :
    squeeze isDot (List.replicate (j + 1) '.' ++ m) = '.' :: m := by
  rw [List.replicate_succ, List.cons_append, squeeze,
    squeezeAux_dot_over_replicate hm]

theorem stripEnds_dot_cons (m : List Char) :
    stripEnds isStripChar ('.' :: m) = stripEnds isStripChar m := by
  rw [stripEnds, stripEnds, List.dropWhile_cons, if_pos]
  decide

/-- Key structural lemma: when every dot of the stem lies in a leading run,
the sanitized stem is dot-free (the run collapses to a single leading dot,
which the strip step removes). -/
theorem sanitizedStem_dotFree {m : List Char} (k : Nat)
    (hm : m.all (fun c => !(isDot c)) = true) :
    (sanitizedStem (List.replicate k '.' ++ m)).all (fun c => !(isDot c)) = true := by
  have hm1 : (mapBad m).all (fun c => !(isDot c)) = true := mapBad_dotFree hm
  have hm2 : (squeeze isUnd (mapBad m)).all (fun c => !(isDot c)) = true :=
    squeeze_all hm1
  rw [sanitizedStem, mapBad_replicate_dot,
    squeeze_append_of_allNot (replicate_all_not_isUnd k)]
  cases k with
  | zero =>
    rw [List.replicate, List.nil_append, squeeze_id_of_allNot hm2]
    exact stripEnds_all hm2
  | succ j =>
    rw [squeeze_dot_replicate_succ hm2, stripEnds_dot_cons]
    exact stripEnds_all hm2

theorem sanitizeBase_dotFree {m : List Char} (k : Nat)
    (hm : m.all (fun c => !(isDot c)) = true) :
    (sanitizeBase (List.replicate k '.' ++ m)).all (fun c => !(isDot c)) = true := by
  rw [sanitizeBase]
  by_cases hemp : (sanitizedStem (List.replicate k '.' ++ m)).isEmpty = true
  · rw [if_pos hemp]; decide
  · rw [if_neg hemp]; exact sanitizedStem_dotFree k hm

/-! ### Idempotence of `sanitize_filename` on separator-free inputs -/

theorem replicate_append_cons (n : Nat) (x : Char) (t : List Char) :
    List.replicate n x ++ x :: t = List.replicate (n + 1) x ++ t := by
  induction n with
  | zero => rfl
  | succ j ih =>
    rw [List.replicate_succ, List.cons_append, ih,
      List.replicate_succ x (j + 1), List.cons_append]

theorem dotFree_sanitize_fix {x : List Char}
    (hy : (sanitizeBase x).all (fun c => !(isDot c)) = true) :
    sanitize_filename (String.mk (sanitizeBase x)) = String.mk (sanitizeBase x) := by
  have hnot : '.' ∉ sanitizeBase x := by
    intro hmem
    have h1 := List.all_eq_true.mp hy '.' hmem
    simp [isDot] at h1
  rw [sanitize_filename,
    show (String.mk (sanitizeBase x)).data = sanitizeBase x from rfl,
    splitext_of_none (lastIndexOf_eq_none.mpr hnot)]
  rw [show ((sanitizeBase x, ([] : List Char)).1) = sanitizeBase x from rfl,
    show ((sanitizeBase x, ([] : List Char)).2) = ([] : List Char) from rfl]
  rw [sanitizeBase_idem, List.append_nil]

/-- C8 (amended): `sanitize_filename` is idempotent on every input that
contains no path separator `/`: for such `s`,
`sanitize_filename (sanitize_filename s) = sanitize_filename s`.  (On inputs
containing `/`, idempotence fails — see the counterexample — because
`os.path.splitext` never splits when the last dot precedes the last slash,
so a sanitized output such as `a_.b_c` re-splits at a dot whose stem then
loses a trailing underscore to the strip step.) -/
theorem C8_sanitize_idempotent_slash_free (s : String) (h : '/' ∉ s.data) :
    sanitize_filename (sanitize_filename s) = sanitize_filename s := by
  have hsl : lastIndexOf '/' s.data = none := lastIndexOf_eq_none.mpr h
  cases hdot : lastIndexOf '.' s.data with
  | none =>
    have hldf : s.data.all (fun c => !(isDot c)) = true := by
      rw [List.all_eq_true]
      intro x hx
      cases hd : isDot x
      · rfl
      · rw [isDot, beq_iff_eq] at hd
        subst hd
        exact absurd hx (lastIndexOf_eq_none.mp hdot)
    have hout : sanitize_filename s = String.mk (sanitizeBase s.data) := by
      rw [sanitize_filename, splitext_of_none hdot]
      rw [show ((s.data, ([] : List Char)).1) = s.data from rfl,
        show ((s.data, ([] : List Char)).2) = ([] : List Char) from rfl,
        List.append_nil]
    have hdf : (sanitizeBase s.data).all (fun c => !(isDot c)) = true := by
      have h1 := sanitizeBase_dotFree 0 hldf
      rwa [List.replicate, List.nil_append] at h1
    rw [hout, dotFree_sanitize_fix hdf]
  | some d =>
    obtain ⟨hdrop, hnotin⟩ := lastIndexOf_spec hdot
    by_cases hany : (s.data.take d).any (fun c => !(c == '.')) = true
    · -- the extension is nonempty: `'.' :: t` with `t` dot-free
      have hsp := splitext_of_split hdot hsl hany
      have hout : sanitize_filename s
          = String.mk (sanitizeBase (s.data.take d) ++ '.' :: s.data.drop (d + 1)) := by
        rw [sanitize_filename, hsp]
        rw [show ((s.data.take d, s.data.drop d).1) = s.data.take d from rfl,
          show ((s.data.take d, s.data.drop d).2) = s.data.drop d from rfl, hdrop]
      have hBall : (sanitizeBase (s.data.take d)).all isAllowed = true :=
        sanitizeBase_all _
      have hslB : '/' ∉ sanitizeBase (s.data.take d) := by
        intro hmem
        have h1 := List.all_eq_true.mp hBall '/' hmem
        simp [isAllowed] at h1
      have hslt : '/' ∉ s.data.drop (d + 1) := fun hmem =>
        h (List.mem_of_mem_drop hmem)
      have hsl2 : lastIndexOf '/'
          (sanitizeBase (s.data.take d) ++ '.' :: s.data.drop (d + 1)) = none := by
        rw [lastIndexOf_eq_none]
        intro hmem
        rcases List.mem_append.mp hmem with h1 | h1
        · exact hslB h1
        · rcases List.mem_cons.mp h1 with h2 | h2
          · exact absurd h2 (by decide)
          · exact hslt h2
      have hd2 : lastIndexOf '.'
          (sanitizeBase (s.data.take d) ++ '.' :: s.data.drop (d + 1))
          = some (sanitizeBase (s.data.take d)).length := lastIndexOf_append hnotin
      have hany2 : ((sanitizeBase (s.data.take d) ++ '.' :: s.data.drop (d + 1)).take
          (sanitizeBase (s.data.take d)).length).any (fun c => !(c == '.')) = true := by
        rw [List.take_left]
        exact sanitizeBase_any_notDot _
      have hsp2 : splitext (sanitizeBase (s.data.take d) ++ '.' :: s.data.drop (d + 1))
          = (sanitizeBase (s.data.take d), '.' :: s.data.drop (d + 1)) := by
        rw [splitext_of_split hd2 hsl2 hany2, List.take_left, List.drop_left]
      rw [hout, sanitize_filename,
        show (String.mk (sanitizeBase (s.data.take d) ++ '.' :: s.data.drop (d + 1))).data
          = sanitizeBase (s.data.take d) ++ '.' :: s.data.drop (d + 1) from rfl,
        hsp2]
      rw [show ((sanitizeBase (s.data.take d), '.' :: s.data.drop (d + 1)).1)
          = sanitizeBase (s.data.take d) from rfl,
        show ((sanitizeBase (s.data.take d), '.' :: s.data.drop (d + 1)).2)
          = '.' :: s.data.drop (d + 1) from rfl]
      rw [sanitizeBase_idem]
    · -- every character before the last dot is a dot: no split happens
      have hany' : (s.data.take d).any (fun c => !(c == '.')) = false := by
        cases hres : (s.data.take d).any (fun c => !(c == '.'))
        · rfl
        · exact absurd hres hany
      have hsp := splitext_of_allDots hdot hsl hany'
      have hdecomp : s.data = s.data.take d ++ '.' :: s.data.drop (d + 1) := by
        conv_lhs => rw [← List.take_append_drop d s.data]
        rw [hdrop]
      have htake : s.data.take d = List.replicate (s.data.take d).length '.' := by
        apply List.eq_replicate_of_mem
        intro b hb
        by_contra hne
        have h1 : (s.data.take d).any (fun c => !(c == '.')) = true := by
          rw [List.any_eq_true]
          refine ⟨b, hb, ?_⟩
          cases hbe : (b == '.')
          · rfl
          · rw [beq_iff_eq] at hbe
            exact absurd hbe hne
        rw [hany'] at h1
        cases h1
      have htdf : (s.data.drop (d + 1)).all (fun c => !(isDot c)) = true := by
        rw [List.all_eq_true]
        intro x hx
        cases hbe : isDot x
        · rfl
        · rw [isDot, beq_iff_eq] at hbe
          subst hbe
          exact absurd hx hnotin
      have hshape : s.data
          = List.replicate ((s.data.take d).length + 1) '.' ++ s.data.drop (d + 1) := by
        conv_lhs => rw [hdecomp]
        conv_lhs => rw [htake]
        rw [replicate_append_cons]
      have hout : sanitize_filename s = String.mk (sanitizeBase s.data) := by
        rw [sanitize_filename, hsp]
        rw [show ((s.data, ([] : List Char)).1) = s.data from rfl,
          show ((s.data, ([] : List Char)).2) = ([] : List Char) from rfl,
          List.append_nil]
      have hdf : (sanitizeBase s.data).all (fun c => !(isDot c)) = true := by
        conv_lhs => rw [hshape]
        exact sanitizeBase_dotFree _ htdf
      rw [hout, dotFree_sanitize_fix hdf]

/-! ### BatchProcessor metric accounting -/

theorem collectResults_spec {α : Type} (outcome : α → TaskOutcome)
    (subs : List α) (m : ProcessingMetrics) :
    (collectResults outcome subs m).processed_files
        + (collectResults outcome subs m).failed_files
      = m.processed_files + m.failed_files + subs.length
    ∧ (collectResults outcome subs m).skipped_files = m.skipped_files
    ∧ (collectResults outcome subs m).total_files = m.total_files := by
  induction subs generalizing m with
  | nil => exact ⟨by simp [collectResults], rfl, rfl⟩
  | cons f rest ih =>
    simp only [collectResults]
    cases hout : outcome f with
    | ok b =>
      cases b
      · obtain ⟨h1, h2, h3⟩ := ih { m with failed_files := m.failed_files + 1 }
        exact ⟨by rw [h1]; simp only [List.length_cons]; omega, h2, h3⟩
      · obtain ⟨h1, h2, h3⟩ := ih { m with processed_files := m.processed_files + 1 }
        exact ⟨by rw [h1]; simp only [List.length_cons]; omega, h2, h3⟩
    | exn =>
      obtain ⟨h1, h2, h3⟩ := ih { m with failed_files := m.failed_files + 1 }
      exact ⟨by rw [h1]; simp only [List.length_cons]; omega, h2, h3⟩

theorem collectResults_allOk {α : Type} (outcome : α → TaskOutcome)
    (subs : List α) (m : ProcessingMetrics)
    (h : ∀ f ∈ subs, outcome f = TaskOutcome.ok true) :
    (collectResults outcome subs m).processed_files
      = m.processed_files + subs.length := by
  induction subs generalizing m with
  | nil => simp [collectResults]
  | cons f rest ih =>
    simp only [collectResults]
    rw [h f (List.mem_cons_self f rest)]
    rw [ih _ (fun g hg => h g (List.mem_cons_of_mem f hg))]
    simp only [List.length_cons]
    omega

theorem takeWhile_eq_self_of_all {p : Nat → Bool} (l : List Nat)
    (h : ∀ x ∈ l, p x = true) : l.takeWhile p = l := by
  induction l with
  | nil => rfl
  | cons a as ih =>
    rw [List.takeWhile_cons, if_pos (h a (List.mem_cons_self a as)),
      ih (fun x hx => h x (List.mem_cons_of_mem a hx))]

theorem submittedFiles_of_noCancel {α : Type} (cancelAt : Nat → Bool)
    (files : List α) (h : ∀ i, cancelAt i = false) :
    submittedFiles cancelAt files = files := by
  rw [submittedFiles, takeWhile_eq_self_of_all _ (by intro x _; rw [h x]; rfl),
    List.length_range, List.take_length]

theorem submittedFiles_length_le {α : Type} (cancelAt : Nat → Bool)
    (files : List α) :
    (submittedFiles cancelAt files).length ≤ files.length := by
  rw [submittedFiles, List.length_take]
  exact inf_le_right

theorem process_files_spec {α : Type} (outcome : α → TaskOutcome)
    (cancelAt : Nat → Bool) (files : List α) :
    (process_files outcome cancelAt files).processed_files
        + (process_files outcome cancelAt files).failed_files
      = (submittedFiles cancelAt files).length
    ∧ (process_files outcome cancelAt files).skipped_files = 0
    ∧ (process_files outcome cancelAt files).total_files = files.length := by
  obtain ⟨h1, h2, h3⟩ :=
    collectResults_spec outcome (submittedFiles cancelAt files)
      { total_files := files.length, processed_files := 0, failed_files := 0,
        skipped_files := 0 }
  rw [process_files]
  exact ⟨by rw [h1]; simp, by rw [h2], by rw [h3]⟩

theorem process_files_processed_le {α : Type} (outcome : α → TaskOutcome)
    (cancelAt : Nat → Bool) (files : List α) :
    (process_files outcome cancelAt files).processed_files ≤ files.length := by
  obtain ⟨h1, _, _⟩ := process_files_spec outcome cancelAt files
  have h2 := submittedFiles_length_le cancelAt files
  omega

/-! ### Ledger lemmas -/

theorem addEntry_self_processed (now : Nat) (q : String) (es : List Entry) :
    (addEntry now q es).any (fun e => e.path == q && e.still_exists) = true := by
  induction es with
  | nil => simp [addEntry]
  | cons e es ih =>
    simp only [addEntry]
    by_cases hq : (e.path == q) = true
    · rw [if_pos hq, List.any_cons]
      simp only [hq]
      rfl
    · rw [if_neg hq, List.any_cons, ih, Bool.or_true]

theorem addEntry_any_processed {now : Nat} {q p : String} {es : List Entry}
    (h : es.any (fun e => e.path == p && e.still_exists) = true) :
    (addEntry now q es).any (fun e => e.path == p && e.still_exists) = true := by
  induction es with
  | nil => cases h
  | cons e es ih =>
    rw [List.any_cons, Bool.or_eq_true] at h
    simp only [addEntry]
    by_cases hq : (e.path == q) = true
    · rw [if_pos hq, List.any_cons]
      rcases h with h | h
      · rw [Bool.and_eq_true] at h
        simp only [h.1, Bool.true_and]
        rfl
      · rw [h, Bool.or_true]
    · rw [if_neg hq, List.any_cons]
      rcases h with h | h
      · rw [h]; rfl
      · rw [ih h, Bool.or_true]

theorem is_file_processed_add {now : Nat} {l : Ledger} {q p : String}
    (h : is_file_processed l p = true) :
    is_file_processed (add_processed_file now l q) p = true := by
  rw [is_file_processed] at h
  rw [is_file_processed, add_processed_file]
  exact addEntry_any_processed h

theorem is_file_processed_add_self (now : Nat) (l : Ledger) (q : String) :
    is_file_processed (add_processed_file now l q) q = true := by
  rw [is_file_processed, add_processed_file]
  exact addEntry_self_processed now q l.files

theorem is_file_processed_addAll {now : Nat} {l : Ledger} {paths : List String}
    {p : String} :
    (is_file_processed l p = true ∨ p ∈ paths) →
    is_file_processed (addAllPaths now l paths) p = true := by
  induction paths generalizing l with
  | nil =>
    intro h
    rcases h with h | h
    · exact h
    · cases h
  | cons q qs ih =>
    intro h
    rw [addAllPaths, List.foldl_cons]
    rw [show List.foldl (add_processed_file now) (add_processed_file now l q) qs
        = addAllPaths now (add_processed_file now l q) qs from rfl]
    rcases h with h | h
    · exact ih (Or.inl (is_file_processed_add h))
    · rcases List.mem_cons.mp h with h | h
      · subst h
        exact ih (Or.inl (is_file_processed_add_self now l p))
      · exact ih (Or.inr h)

theorem addEntry_still_true {now : Nat} {q : String} {es : List Entry}
    (h : ∀ e ∈ es, e.still_exists = true) :
    ∀ e ∈ addEntry now q es, e.still_exists = true := by
  induction es with
  | nil =>
    intro e he
    simp only [addEntry, List.mem_singleton] at he
    rw [he]
  | cons a as ih =>
    intro e he
    simp only [addEntry] at he
    by_cases hq : (a.path == q) = true
    · rw [if_pos hq] at he
      rcases List.mem_cons.mp he with h1 | h1
      · rw [h1]
      · exact h e (List.mem_cons_of_mem a h1)
    · rw [if_neg hq] at he
      rcases List.mem_cons.mp he with h1 | h1
      · rw [h1]; exact h a (List.mem_cons_self a as)
      · exact ih (fun x hx => h x (List.mem_cons_of_mem a hx)) e h1

theorem addAll_still_true {now : Nat} {l : Ledger} {paths : List String}
    (h : ∀ e ∈ l.files, e.still_exists = true) :
    ∀ e ∈ (addAllPaths now l paths).files, e.still_exists = true := by
  induction paths generalizing l with
  | nil => exact h
  | cons q qs ih =>
    rw [addAllPaths, List.foldl_cons]
    exact ih (addEntry_still_true h)

theorem cleanup_hasPath {fs : String → Bool} {now : Nat} {l : Ledger}
    {p : String}
    (hall : ∀ e ∈ l.files, e.still_exists = true)
    (h : (l.files.any (fun e => e.path == p)) = true) :
    ((cleanup_old_entries fs now l).files.any (fun e => e.path == p)) = true := by
  rw [List.any_eq_true] at h
  obtain ⟨e, he, hpe⟩ := h
  rw [cleanup_old_entries]
  rw [List.any_eq_true]
  by_cases hfs : fs e.path = true
  · refine ⟨{ e with still_exists := true, last_seen := now }, ?_, hpe⟩
    rw [List.mem_filterMap]
    exact ⟨e, he, by rw [if_pos hfs]⟩
  · refine ⟨{ e with still_exists := false }, ?_, hpe⟩
    rw [List.mem_filterMap]
    refine ⟨e, he, ?_⟩
    rw [if_neg hfs, hall e he]
    rfl

theorem hasPath_of_processed {l : Ledger} {p : String}
    (h : is_file_processed l p = true) :
    (l.files.any (fun e => e.path == p)) = true := by
  rw [is_file_processed, List.any_eq_true] at h
  obtain ⟨e, he, hpe⟩ := h
  rw [Bool.and_eq_true] at hpe
  rw [List.any_eq_true]
  exact ⟨e, he, hpe.1⟩

theorem load_is_processed (fs : String → Bool) (now : Nat) (L : Ledger)
    (p : String) :
    is_file_processed (load_processed_files fs now (some L)) p
      = L.files.any (fun e => (e.path == p) && fs e.path) := by
  rw [load_processed_files, is_file_processed]
  rw [List.any_map]
  rfl

theorem hasPath_roundtrip_eq {fs : String → Bool} {L : Ledger} {p : String}
    (h : (L.files.any (fun e => e.path == p)) = true) :
    (L.files.any (fun e => (e.path == p) && fs e.path)) = fs p := by
  rw [List.any_eq_true] at h
  obtain ⟨e, he, hpe⟩ := h
  have hpath : e.path = p := by rwa [beq_iff_eq] at hpe
  cases hfs : fs p with
  | true =>
    rw [List.any_eq_true]
    exact ⟨e, he, by rw [hpe, hpath, hfs]; rfl⟩
  | false =>
    cases hany : L.files.any (fun e => (e.path == p) && fs e.path) with
    | false => rfl
    | true =>
      rw [List.any_eq_true] at hany
      obtain ⟨e', he', hpe'⟩ := hany
      rw [Bool.and_eq_true] at hpe'
      have : e'.path = p := by
        have h1 := hpe'.1; rwa [beq_iff_eq] at h1
      rw [this, hfs] at hpe'
      exact absurd hpe'.2 Bool.false_ne_true

theorem cleanupEntry_cases {fs : String → Bool} {now : Nat} {a e' : Entry}
    (h : (if fs a.path then some { a with still_exists := true, last_seen := now }
          else if !a.still_exists then none
          else some { a with still_exists := false }) = some e') :
    e'.path = a.path ∧ (fs a.path = false → e'.still_exists = false) := by
  by_cases h1 : fs a.path = true
  · rw [if_pos h1] at h
    cases h
    exact ⟨rfl, fun hc => absurd h1 (by rw [hc]; exact Bool.false_ne_true)⟩
  · rw [if_neg h1] at h
    by_cases h2 : (!a.still_exists) = true
    · rw [if_pos h2] at h
      cases h
    · rw [if_neg h2] at h
      cases h
      exact ⟨rfl, fun _ => rfl⟩

theorem save_files_eq (fs : String → Bool) (now : Nat) (l : Ledger) :
    (save_processed_files fs now l).files
      = if l.files.length > cleanup_threshold
        then (cleanup_old_entries fs now l).files
        else l.files := by
  rw [save_processed_files]
  by_cases h : l.files.length > cleanup_threshold
  · rw [if_pos h, if_pos h]
  · rw [if_neg h, if_neg h]

/-! ### SingleFileProcessor reduction lemmas -/

theorem netUserImages_never (e : Env) (a : Args) :
    Ev.netUserImages ∉ (process_single_file e a).2 := by
  have hchk : Ev.netUserImages ∉ (check_for_updates e).2 := by
    rw [check_for_updates]
    repeat' split
    all_goals simp
  have hhs : Ev.netUserImages ∉ (hashStep e a.only_update).2 := by
    rw [hashStep]
    repeat' split
    all_goals simp
  have hver : Ev.netUserImages ∉ (fetch_version_data e a.skip_images).2 := by
    rw [fetch_version_data]
    split
    all_goals simp [List.mem_append, List.mem_replicate]
  have hdet : Ev.netUserImages ∉ (fetch_model_details e).2 := by
    simp [fetch_model_details]
  rw [process_single_file]
  repeat'
    first
    | split
    | simp_all [List.mem_append, List.mem_cons]

theorem writeVersionTxt_never (e : Env) (a : Args) :
    Ev.writeVersionTxt ∉ (process_single_file e a).2 := by
  have hchk : Ev.writeVersionTxt ∉ (check_for_updates e).2 := by
    rw [check_for_updates]
    repeat' split
    all_goals simp
  have hhs : Ev.writeVersionTxt ∉ (hashStep e a.only_update).2 := by
    rw [hashStep]
    repeat' split
    all_goals simp
  have hver : Ev.writeVersionTxt ∉ (fetch_version_data e a.skip_images).2 := by
    rw [fetch_version_data]
    split
    all_goals simp [List.mem_append, List.mem_replicate]
  have hdet : Ev.writeVersionTxt ∉ (fetch_model_details e).2 := by
    simp [fetch_model_details]
  rw [process_single_file]
  repeat'
    first
    | split
    | simp_all [List.mem_append, List.mem_cons]

/-! ## Claim theorems -/

/-- C1 (code bug): the staleness short-circuit can never fire on a state the
pipeline itself produces, so a second run against unchanged sources and an
unchanged registry does NOT perform zero version/detail calls.
`check_for_updates` reads its stored `updatedAt` from `civitai_version.txt`,
but no execution of the pipeline ever writes that file (first conjunct:
`writeVersionTxt` is absent from every trace) — `fetch_version_data` saves
the `updatedAt` payload to `<stem>_civitai_model_version.json` instead.
Hence on every reachable second-run environment (`versionTxtExists = false`,
all first-run artifacts present, registry unchanged) `check_for_updates`
reports update-needed without even issuing its GET, and the run performs the
by-hash version GET and the model-detail GET again and rewrites the version
payload, while still returning `true`. -/
theorem C1_short_circuit_never_fires (e : Env) (a : Args) (i : Nat)
    (hh : a.html_only = false) (ho : a.only_update = false)
    (hf : e.fileExists = true) (hs : e.suffixSupported = true)
    (v : String) (hfh : e.freshHash = some v) (hne : v.isEmpty = false)
    (hmeta : e.metadataOk = true)
    (hver : e.versionStatusOk = true) (hid : e.versionModelId = some i)
    (hvt : e.versionTxtExists = false) :
    (∀ (e' : Env) (a' : Args),
      Ev.writeVersionTxt ∉ (process_single_file e' a').2)
    ∧ check_for_updates e = (true, [])
    ∧ (process_single_file e a).1 = true
    ∧ Ev.netVersionByHash ∈ (process_single_file e a).2
    ∧ Ev.netModelDetails ∈ (process_single_file e a).2
    ∧ Ev.writeVersionJson ∈ (process_single_file e a).2 := by
  have hchk : check_for_updates e = (true, []) := by
    rw [check_for_updates, hvt]
    simp
  have hneed : (check_for_updates e).1 = true := by rw [hchk]
  have hfv1 : (fetch_version_data e a.skip_images).1 = some i := by
    rw [fetch_version_data, if_pos hver, hid]
  have hred : process_single_file e a
      = (true, Ev.mkOutputDirs ::
          ([Ev.writeHashJson] ++ (check_for_updates e).2 ++ [Ev.writeMetadataJson]
            ++ (fetch_version_data e a.skip_images).2 ++ (fetch_model_details e).2
            ++ (if !a.skip_images && a.user_posts_limit != 0
                then [Ev.netUserPosts] else [])
            ++ [Ev.writeHtml])) := by
    simp [process_single_file, hashStep, hf, hs, hh, ho, hfh, hne, hneed,
      hmeta, hfv1]
  refine ⟨writeVersionTxt_never, hchk, ?_, ?_, ?_, ?_⟩
  all_goals rw [hred]
  all_goals simp [List.mem_append, fetch_version_data, hver, fetch_model_details]

/-- Witness for C1's code-bug demonstration at the concrete second-run
environment. -/
theorem C1_short_circuit_never_fires_witness :
    sampleEnvSecondRun.versionTxtExists = false
    ∧ check_for_updates sampleEnvSecondRun = (true, [])
    ∧ (process_single_file sampleEnvSecondRun sampleArgs).1 = true
    ∧ Ev.netVersionByHash ∈ (process_single_file sampleEnvSecondRun sampleArgs).2
    ∧ Ev.netModelDetails ∈ (process_single_file sampleEnvSecondRun sampleArgs).2 := by
  have h := C1_short_circuit_never_fires sampleEnvSecondRun sampleArgs 7
    rfl rfl rfl rfl "abc123" rfl (by decide) rfl rfl rfl rfl
  exact ⟨rfl, h.2.1, h.2.2.1, h.2.2.2.1, h.2.2.2.2.1⟩

/-- C2 counterexample: in an environment where the version fetch yields model
id 42 but the model-detail fetch fails, `process_single_file` returns `true`,
not `false` as the claim states (the boolean result of `fetch_model_details`
is discarded at the call site). -/
theorem C2_detail_failure_counterexample :
    (fetch_version_data sampleEnvDetailFail sampleArgs.skip_images).1 = some 42
    ∧ sampleEnvDetailFail.detailsOk = false
    ∧ (fetch_model_details sampleEnvDetailFail).1 = false
    ∧ (process_single_file sampleEnvDetailFail sampleArgs).1 = true := by
  decide

/-- C2 (amended): if `process_single_file` obtains a model id, it returns
`true` regardless of whether the subsequent model-detail fetch succeeds (its
boolean result is ignored), and the artifacts written by the earlier steps
(hash.json, metadata.json, the version payload) remain on disk with no
rollback — their write events are all in the final trace, which also records
that the detail fetch was attempted. -/
theorem C2_detail_failure_no_rollback (e : Env) (a : Args) (i : Nat)
    (hh : a.html_only = false) (ho : a.only_update = false)
    (hf : e.fileExists = true) (hs : e.suffixSupported = true)
    (v : String) (hfh : e.freshHash = some v) (hne : v.isEmpty = false)
    (hneed : (check_for_updates e).1 = true)
    (hmeta : e.metadataOk = true)
    (hver : e.versionStatusOk = true)
    (hid : e.versionModelId = some i) :
    (process_single_file e a).1 = true
    ∧ Ev.writeHashJson ∈ (process_single_file e a).2
    ∧ Ev.writeMetadataJson ∈ (process_single_file e a).2
    ∧ Ev.writeVersionJson ∈ (process_single_file e a).2
    ∧ Ev.netModelDetails ∈ (process_single_file e a).2 := by
  have hred : process_single_file e a
      = (true, Ev.mkOutputDirs ::
          ([Ev.writeHashJson] ++ (check_for_updates e).2 ++ [Ev.writeMetadataJson]
            ++ (fetch_version_data e a.skip_images).2 ++ (fetch_model_details e).2
            ++ (if !a.skip_images && a.user_posts_limit != 0
                then [Ev.netUserPosts] else [])
            ++ [Ev.writeHtml])) := by
    have hfv1 : (fetch_version_data e a.skip_images).1 = some i := by
      rw [fetch_version_data, if_pos hver, hid]
    simp [process_single_file, hashStep, hf, hs, hh, ho, hfh, hne, hneed,
      hmeta, hfv1]
  rw [hred]
  refine ⟨rfl, ?_, ?_, ?_, ?_⟩ <;>
    simp [List.mem_append, fetch_version_data, hver, fetch_model_details]

/-- Witness for C2's amended statement at the concrete environment. -/
theorem C2_detail_failure_no_rollback_witness :
    sampleEnvDetailFail.detailsOk = false
    ∧ (process_single_file sampleEnvDetailFail sampleArgs).1 = true
    ∧ Ev.writeHashJson ∈ (process_single_file sampleEnvDetailFail sampleArgs).2 := by
  have h := C2_detail_failure_no_rollback sampleEnvDetailFail sampleArgs 42
    rfl rfl rfl rfl "abc123" rfl (by decide) (by decide) rfl rfl rfl
  exact ⟨rfl, h.1, h.2.1⟩

/-- C3 counterexample: with files `["a", "b"]` where the task for `"a"`
returns `false` and the task for `"b"` returns `true`, the directory step
records `"a"` (a failed file) into the ledger and does not record `"b"` (the
processed file): the recorded set is the count-based prefix, not the set of
files the batch reported as processed. -/
theorem C3_prefix_recording_counterexample :
    is_file_processed (process_directory_ledger_step false false 0
        (fun f : String => if f == "b" then TaskOutcome.ok true
                           else TaskOutcome.ok false)
        (fun _ => false) ["a", "b"] (fun f => f) emptyLedger).2.1 "b" = false
    ∧ is_file_processed (process_directory_ledger_step false false 0
        (fun f : String => if f == "b" then TaskOutcome.ok true
                           else TaskOutcome.ok false)
        (fun _ => false) ["a", "b"] (fun f => f) emptyLedger).2.1 "a" = true
    ∧ (if ("b" : String) == "b" then TaskOutcome.ok true
       else TaskOutcome.ok false) = TaskOutcome.ok true
    ∧ (if ("a" : String) == "b" then TaskOutcome.ok true
       else TaskOutcome.ok false) = TaskOutcome.ok false := by
  decide

/-- C3 (amended): after a non-`html_only`, non-`only_update` run, the
directory step records the first `processed_files` entries of the scanned
list — a prefix whose length equals the number of tasks that returned
`true`, but not necessarily those same files — via `add_processed_file`, and
the ledger is saved; every recorded path tests as processed afterwards. -/
theorem C3_count_prefix_recorded {α : Type} (outcome : α → TaskOutcome)
    (cancelAt : Nat → Bool) (files : List α) (pathOf : α → String)
    (ledger : Ledger) (now : Nat) :
    process_directory_ledger_step false false now outcome cancelAt files
        pathOf ledger
      = (process_files outcome cancelAt files,
         addAllPaths now ledger
           ((files.take (process_files outcome cancelAt files).processed_files).map
             pathOf),
         true)
    ∧ (files.take (process_files outcome cancelAt files).processed_files).length
        = (process_files outcome cancelAt files).processed_files
    ∧ ∀ f ∈ files.take (process_files outcome cancelAt files).processed_files,
        is_file_processed
          (process_directory_ledger_step false false now outcome cancelAt files
            pathOf ledger).2.1 (pathOf f) = true := by
  refine ⟨by rw [process_directory_ledger_step]; simp, ?_, ?_⟩
  · rw [List.length_take]
    exact inf_eq_left.mpr (process_files_processed_le outcome cancelAt files)
  · intro f hf
    have hstep : (process_directory_ledger_step false false now outcome cancelAt
        files pathOf ledger).2.1
        = addAllPaths now ledger
            ((files.take (process_files outcome cancelAt files).processed_files).map
              pathOf) := by
      rw [process_directory_ledger_step]; simp
    rw [hstep]
    exact is_file_processed_addAll (Or.inr (List.mem_map_of_mem pathOf hf))

/-- C4: for every completed (non-cancelled) `BatchProcessor.process_files`
run, `processed_files + failed_files + skipped_files = total_files`, and
`total_files` is the length of the input list. -/
theorem C4_completed_batch_conservation {α : Type} (outcome : α → TaskOutcome)
    (cancelAt : Nat → Bool) (files : List α)
    (hnc : ∀ i, cancelAt i = false) :
    (process_files outcome cancelAt files).processed_files
        + (process_files outcome cancelAt files).failed_files
        + (process_files outcome cancelAt files).skipped_files
      = (process_files outcome cancelAt files).total_files
    ∧ (process_files outcome cancelAt files).total_files = files.length := by
  obtain ⟨h1, h2, h3⟩ := process_files_spec outcome cancelAt files
  rw [submittedFiles_of_noCancel cancelAt files hnc] at h1
  exact ⟨by omega, h3⟩

/-- Witness for C4 on a concrete three-file batch with mixed outcomes. -/
theorem C4_completed_batch_conservation_witness :
    (∀ i : Nat, (fun _ : Nat => false) i = false)
    ∧ ((process_files
          (fun n : Nat => if n == 0 then TaskOutcome.ok true
                          else TaskOutcome.ok false)
          (fun _ : Nat => false) [0, 1, 2]).processed_files
        + (process_files
            (fun n : Nat => if n == 0 then TaskOutcome.ok true
                            else TaskOutcome.ok false)
            (fun _ : Nat => false) [0, 1, 2]).failed_files
        + (process_files
            (fun n : Nat => if n == 0 then TaskOutcome.ok true
                            else TaskOutcome.ok false)
            (fun _ : Nat => false) [0, 1, 2]).skipped_files
      = (process_files
          (fun n : Nat => if n == 0 then TaskOutcome.ok true
                          else TaskOutcome.ok false)
          (fun _ : Nat => false) [0, 1, 2]).total_files
    ∧ (process_files
        (fun n : Nat => if n == 0 then TaskOutcome.ok true
                        else TaskOutcome.ok false)
        (fun _ : Nat => false) [0, 1, 2]).total_files = [0, 1, 2].length) :=
  ⟨fun _ => rfl,
    C4_completed_batch_conservation _ _ _ (fun _ => rfl)⟩

/-- C5 counterexample: cancellation observed from the second iteration on
stops submission after one task; the metrics end as
`{total 2, processed 1, failed 0, skipped 0}`, so `skipped_files` does not
account for the `total - submitted = 1` remainder — it is never
incremented anywhere. -/
theorem C5_skipped_counterexample :
    process_files (fun _ : Nat => TaskOutcome.ok true)
        (fun i => decide (1 ≤ i)) [0, 1]
      = { total_files := 2, processed_files := 1, failed_files := 0,
          skipped_files := 0 }
    ∧ (process_files (fun _ : Nat => TaskOutcome.ok true)
        (fun i => decide (1 ≤ i)) [0, 1]).skipped_files
      ≠ (process_files (fun _ : Nat => TaskOutcome.ok true)
          (fun i => decide (1 ≤ i)) [0, 1]).total_files
        - ((process_files (fun _ : Nat => TaskOutcome.ok true)
            (fun i => decide (1 ≤ i)) [0, 1]).processed_files
          + (process_files (fun _ : Nat => TaskOutcome.ok true)
              (fun i => decide (1 ≤ i)) [0, 1]).failed_files) := by
  decide

/-- C5 (amended): for every `process_files` invocation, including ones cut
short by cancellation, `processed_files + failed_files` equals the number of
tasks actually submitted, which is at most `total_files = len(files)`; but
`skipped_files` is always `0` — it never accounts for the unsubmitted
remainder, because the implementation never increments it. -/
theorem C5_submitted_accounting {α : Type} (outcome : α → TaskOutcome)
    (cancelAt : Nat → Bool) (files : List α) :
    (process_files outcome cancelAt files).processed_files
        + (process_files outcome cancelAt files).failed_files
      = (submittedFiles cancelAt files).length
    ∧ (submittedFiles cancelAt files).length ≤ files.length
    ∧ (process_files outcome cancelAt files).skipped_files = 0
    ∧ (process_files outcome cancelAt files).total_files = files.length := by
  obtain ⟨h1, h2, h3⟩ := process_files_spec outcome cancelAt files
  exact ⟨h1, submittedFiles_length_le cancelAt files, h2, h3⟩

/-- C6 counterexample: one path is added and saved, but on reload the loader
recomputes `still_exists` via `os.path.exists`, so for a path that does not
exist on disk the fresh ledger answers `is_file_processed = false`, not
`true` as the round-trip claim states. -/
theorem C6_roundtrip_counterexample :
    is_file_processed
      (load_processed_files (fun _ => false) 3
        (some (save_processed_files (fun _ => false) 2
          (addAllPaths 1 emptyLedger ["a"])))) "a" = false := by
  decide

/-- C6 (amended): adding N paths, saving, and reloading into a fresh ledger
yields `is_file_processed p = fs p` for every added path `p`, where `fs` is
on-disk existence at reload time: the loader's conversion recomputes
`still_exists` with `os.path.exists(path)`, so exactly the added paths that
exist on disk test as processed. -/
theorem C6_roundtrip_exists_on_disk (fs : String → Bool) (n1 n2 n3 : Nat)
    (paths : List String) (p : String) (hp : p ∈ paths) :
    is_file_processed
      (load_processed_files fs n3
        (some (save_processed_files fs n2 (addAllPaths n1 emptyLedger paths)))) p
      = fs p := by
  have hproc : is_file_processed (addAllPaths n1 emptyLedger paths) p = true :=
    is_file_processed_addAll (Or.inr hp)
  have hpath : ((addAllPaths n1 emptyLedger paths).files.any
      (fun e => e.path == p)) = true := hasPath_of_processed hproc
  have hstill : ∀ e ∈ (addAllPaths n1 emptyLedger paths).files,
      e.still_exists = true :=
    addAll_still_true (by intro e he; cases he)
  have hsave : ((save_processed_files fs n2
      (addAllPaths n1 emptyLedger paths)).files.any (fun e => e.path == p))
      = true := by
    rw [save_files_eq]
    by_cases hlen : (addAllPaths n1 emptyLedger paths).files.length
        > cleanup_threshold
    · rw [if_pos hlen]
      exact cleanup_hasPath hstill hpath
    · rw [if_neg hlen]
      exact hpath
  rw [load_is_processed]
  exact hasPath_roundtrip_eq hsave

/-- Witness for C6's amended statement: the added path exists on disk, and
after the round trip it tests as processed. -/
theorem C6_roundtrip_exists_on_disk_witness :
    ("a" : String) ∈ ["a"]
    ∧ is_file_processed
        (load_processed_files (fun q : String => q == "a") 3
          (some (save_processed_files (fun q : String => q == "a") 2
            (addAllPaths 1 emptyLedger ["a"])))) "a"
      = (fun q : String => q == "a") "a" :=
  ⟨List.mem_singleton.mpr rfl,
    C6_roundtrip_exists_on_disk (fun q : String => q == "a") 1 2 3 ["a"] "a"
      (List.mem_singleton.mpr rfl)⟩

/-- C7: for a ledger entry whose path is missing on disk, a
`cleanup_old_entries` pass over an entry still marked existing flags it
(`still_exists := false`) and retains it — it is never purged on this first
missing revalidation — while a second consecutive pass that still finds the
path missing purges the entry; and `save_processed_files` triggers the
cleanup pass exactly when the entry count exceeds the 1000-entry
threshold. -/
theorem C7_two_pass_eviction (fs : String → Bool) (now now' : Nat)
    (l : Ledger) (p : String) (hfs : fs p = false) :
    (∀ e ∈ l.files, e.path = p → e.still_exists = true →
        ({ e with still_exists := false } : Entry)
          ∈ (cleanup_old_entries fs now l).files)
    ∧ (∀ e ∈ (cleanup_old_entries fs now'
          (cleanup_old_entries fs now l)).files, e.path ≠ p)
    ∧ (l.files.length > cleanup_threshold →
        (save_processed_files fs now l).files
          = (cleanup_old_entries fs now l).files)
    ∧ (l.files.length ≤ cleanup_threshold →
        (save_processed_files fs now l).files = l.files) := by
  refine ⟨?_, ?_, ?_, ?_⟩
  · intro e he hep hse
    rw [cleanup_old_entries]
    rw [List.mem_filterMap]
    refine ⟨e, he, ?_⟩
    rw [if_neg (by rw [hep, hfs]; exact Bool.false_ne_true)]
    rw [if_neg (by rw [hse]; simp)]
  · intro e' he' hpe'
    simp only [cleanup_old_entries, List.mem_filterMap] at he'
    obtain ⟨a, ha, hfa⟩ := he'
    obtain ⟨hpa, _⟩ := cleanupEntry_cases hfa
    obtain ⟨b, hb, hfb⟩ := ha
    obtain ⟨hpb, hsb⟩ := cleanupEntry_cases hfb
    have hap : a.path = p := by rw [← hpe', hpa]
    have hbp : fs b.path = false := by rw [← hpb, hap, hfs]
    have hsa : a.still_exists = false := hsb hbp
    have hfap : fs a.path = false := by rw [hap, hfs]
    rw [if_neg (by rw [hfap]; exact Bool.false_ne_true)] at hfa
    rw [if_pos (by rw [hsa]; rfl)] at hfa
    cases hfa
  · intro h
    rw [save_files_eq, if_pos h]
  · intro h
    rw [save_files_eq, if_neg (Nat.not_lt.mpr h)]

/-- Witness for C7 on a one-entry ledger whose path is missing on disk. -/
theorem C7_two_pass_eviction_witness :
    (fun _ : String => false) "a" = false
    ∧ ((∀ e ∈ sampleLedgerOne.files, e.path = "a" → e.still_exists = true →
          ({ e with still_exists := false } : Entry)
            ∈ (cleanup_old_entries (fun _ => false) 1 sampleLedgerOne).files)
      ∧ (∀ e ∈ (cleanup_old_entries (fun _ => false) 2
            (cleanup_old_entries (fun _ => false) 1 sampleLedgerOne)).files,
          e.path ≠ "a")
      ∧ (sampleLedgerOne.files.length > cleanup_threshold →
          (save_processed_files (fun _ => false) 1 sampleLedgerOne).files
            = (cleanup_old_entries (fun _ => false) 1 sampleLedgerOne).files)
      ∧ (sampleLedgerOne.files.length ≤ cleanup_threshold →
          (save_processed_files (fun _ => false) 1 sampleLedgerOne).files
            = sampleLedgerOne.files)) :=
  ⟨rfl, C7_two_pass_eviction (fun _ => false) 1 2 sampleLedgerOne "a" rfl⟩

/-- C8 counterexample: on an input containing a path separator,
`sanitize_filename` is not idempotent: `sanitize("a_.b/c") = "a_.b_c"` (no
split, `/` replaced by `_`), but `sanitize("a_.b_c") = "a.b_c"` (now the
input splits at the dot and the stem `a_` loses its trailing underscore). -/
theorem C8_idempotence_counterexample :
    sanitize_filename "a_.b/c" = "a_.b_c"
    ∧ sanitize_filename "a_.b_c" = "a.b_c"
    ∧ sanitize_filename (sanitize_filename "a_.b/c")
        ≠ sanitize_filename "a_.b/c" := by
  decide

/-- Witness for C8's amended statement at a concrete slash-free input. -/
theorem C8_sanitize_idempotent_slash_free_witness :
    '/' ∉ ("test file.txt" : String).data
    ∧ sanitize_filename (sanitize_filename "test file.txt")
        = sanitize_filename "test file.txt" :=
  ⟨by decide, C8_sanitize_idempotent_slash_free "test file.txt" (by decide)⟩

/-- C9: the content hasher converts both a missing file
(`FileNotFoundError`) and any other read error into the explicit `None`
signal; its Lean model is a total function, so no exception escapes to the
caller in either case. -/
theorem C9_hasher_errors_return_none (digest : List Nat → String)
    (fs : HashFS) (path : String) :
    (readBytes fs path = Except.error ReadErr.fileNotFound →
      calculate_sha256 digest fs path = none)
    ∧ (∀ err : ReadErr, readBytes fs path = Except.error err →
      calculate_sha256 digest fs path = none) := by
  constructor
  · intro h
    rw [calculate_sha256, h]
  · intro err h
    rw [calculate_sha256, h]
    cases err <;> rfl

/-- Witness for C9 on the empty filesystem and a missing path. -/
theorem C9_hasher_errors_return_none_witness :
    readBytes ⟨[], []⟩ "missing" = Except.error ReadErr.fileNotFound
    ∧ calculate_sha256 (fun _ => "") ⟨[], []⟩ "missing" = none :=
  ⟨rfl,
    (C9_hasher_errors_return_none (fun _ => "") ⟨[], []⟩ "missing").1 rfl⟩

/-- C10: the positional arguments the batch path passes after `session` are
shifted against `process_single_file`'s parameter list — position 7 carries
`self.user_images_limit` into the `user_images_level` parameter and position
8 carries `self.user_images_level` into the `user_posts_limit` parameter;
`process_single_file` has no `user_images_limit` parameter; and no execution
of `process_single_file` ever invokes `fetch_user_images`, so the batch path
never downloads into `user_images/`. -/
theorem C10_positional_argument_shift :
    batchSubmitArgs.get? 7 = some "self.user_images_limit"
    ∧ processSingleFileParams.get? 7 = some "user_images_level"
    ∧ batchSubmitArgs.get? 8 = some "self.user_images_level"
    ∧ processSingleFileParams.get? 8 = some "user_posts_limit"
    ∧ "user_images_limit" ∉ processSingleFileParams
    ∧ ∀ (e : Env) (a : Args), Ev.netUserImages ∉ (process_single_file e a).2 := by
  refine ⟨by decide, by decide, by decide, by decide, by decide, ?_⟩
  intro e a
  exact netUserImages_never e a

end Civitai
